import Mathlib

/-!
# A shallow embedding of the `qparams` query-parameter decoder

This file embeds the Go package `qparams` (file `qparams.go`) in Lean 4 and
proves the specification claims about it.  Strings are handled as `String`
values whose computations run over `List Char` (`String.data`), so that every
definition is executable and every concrete statement can be settled by
`decide` or `rfl`.

Conventions of the embedding:
* Go's `strings.ToLower` is modelled for ASCII letters (all inputs appearing
  in the claims are ASCII).
* Go's standard-library parsers `strconv.Atoi`, `strconv.ParseInt` (base 10)
  and `strconv.ParseFloat` are external collaborators; they are modelled on
  their base-10 fragment (sign + digits, resp. decimal mantissa with optional
  exponent).  No claim depends on numeric float values, so a successfully
  parsed float is represented by its accepted literal.
* Go's `url.Values` is modelled as an association list `List (String × List
  String)`; Go map iteration order over it is unspecified, the model iterates
  entries in list order and reads each entry's snapshot value (the two agree
  whenever no query key is revisited after being rewritten, in particular
  whenever the lower-cased keys are pairwise distinct, as in every claim).
* A Go `reflect.Value.Set` with a non-assignable value panics; a panic is
  modelled as the `ParseOutcome.panicked` result.
-/

namespace QParams

/-! ## Character and string utilities (Go `strings` fragment) -/

/-- ASCII lower-casing of one character, the fragment of Go `strings.ToLower`
relevant to the claims (all concerned inputs are ASCII). -/
def lowerChar (c : Char) : Char :=
  if 'A' ≤ c ∧ c ≤ 'Z' then Char.ofNat (c.toNat + 32) else c

/-- ASCII lower-casing of a string (Go `strings.ToLower` on ASCII input). -/
def lowerStr (s : String) : String :=
  String.mk (s.data.map lowerChar)

/-- `beginsWith p l` decides whether `p` is an initial run of `l`. -/
def beginsWith : List Char → List Char → Bool
  | [], _ => true
  | _ :: _, [] => false
  | a :: as, b :: bs => a = b && beginsWith as bs

/-- Split a character list at the first occurrence of the pattern `pat`:
returns the part before the occurrence and the part after it, or `none` when
`pat` does not occur as a contiguous run. -/
def splitAtFirst (pat : List Char) : List Char → Option (List Char × List Char)
  | [] => if beginsWith pat [] then some ([], []) else none
  | c :: cs =>
    if beginsWith pat (c :: cs) then some ([], (c :: cs).drop pat.length)
    else match splitAtFirst pat cs with
      | some (l, r) => some (c :: l, r)
      | none => none

/-- `strContains hay needle` decides whether `needle` occurs as a contiguous
substring of `hay`. -/
def strContains (hay needle : String) : Bool :=
  (splitAtFirst needle.data hay.data).isSome

/-- Fuelled splitter behind `splitSep`; the fuel only serves termination and
`length + 1` steps always suffice for a non-empty separator. -/
def splitSepFuel (sep : List Char) : Nat → List Char → List (List Char)
  | 0, s => [s]
  | fuel + 1, s =>
    match splitAtFirst sep s with
    | none => [s]
    | some (l, r) => l :: splitSepFuel sep fuel r

/-- Go `strings.Split s sep` for a non-empty separator: split around every
(leftmost, non-overlapping) occurrence of `sep`. -/
def splitSep (sep s : List Char) : List (List Char) :=
  splitSepFuel sep (s.length + 1) s

/-- String-level wrapper of `splitSep` (Go `strings.Split`). -/
def splitS (s sep : String) : List String :=
  (splitSep sep.data s.data).map String.mk

/-- Go `strings.Join` with separator `sep`. -/
def joinSep (sep : String) : List String → String
  | [] => ""
  | [x] => x
  | x :: xs => x ++ sep ++ joinSep sep xs

/-- Go `strings.Trim s cutset`: remove every leading and trailing character
that occurs in the cutset. -/
def trimCut (cut : List Char) (s : List Char) : List Char :=
  ((s.dropWhile (cut.contains ·)).reverse.dropWhile (cut.contains ·)).reverse

/-- String-level wrapper of `trimCut`. -/
def trimCutS (cut s : String) : String :=
  String.mk (trimCut cut.data s.data)

/-- ASCII whitespace test for the tokenizer's trimming of field tokens. -/
def isWSChar (c : Char) : Bool :=
  c = ' ' || c = '\t' || c = '\n' || c = '\r'

/-- Trim ASCII whitespace from both ends of a character list. -/
def trimWS (s : List Char) : List Char :=
  ((s.dropWhile isWSChar).reverse.dropWhile isWSChar).reverse

/-! ## Models of the Go `strconv` collaborators -/

/-- Read a non-empty all-digit run as a number (helper for `goAtoi`). -/
def digitsToNat : List Char → Option Nat
  | [] => none
  | cs =>
    if cs.all (fun c => '0' ≤ c ∧ c ≤ '9') then
      some (cs.foldl (fun n c => n * 10 + (c.toNat - '0'.toNat)) 0)
    else none

/-- Model of Go `strconv.Atoi` (and of `strconv.ParseInt _ 10 _`, used by
`parseInt64`): an optional sign followed by at least one ASCII digit; any
other shape is an error (`none`).  Go's int overflow is not modelled; no
claim involves values outside the int range. -/
def goAtoi : List Char → Option Int
  | [] => none
  | '+' :: rest => (digitsToNat rest).map Int.ofNat
  | '-' :: rest => (digitsToNat rest).map (fun n => -(n : Int))
  | s => (digitsToNat s).map Int.ofNat

/-- String-level wrapper of `goAtoi`. -/
def goAtoiS (s : String) : Option Int :=
  goAtoi s.data

/-- Exponent part of a float literal: empty, or `e`/`E`, an optional sign and
at least one digit (helper for `acceptFloat`). -/
def acceptExp : List Char → Bool
  | [] => true
  | c :: rest =>
    if c = 'e' || c = 'E' then
      let rest := match rest with
        | '+' :: r => r
        | '-' :: r => r
        | r => r
      let ds := rest.takeWhile (fun c => decide ('0' ≤ c ∧ c ≤ '9'))
      let tail := rest.dropWhile (fun c => decide ('0' ≤ c ∧ c ≤ '9'))
      ds ≠ [] && tail = []
    else false

/-- Model of the validity test of Go `strconv.ParseFloat` on its base-10
fragment: optional sign, decimal mantissa with at least one digit and at most
one point, optional exponent.  (Go additionally accepts hexadecimal floats,
`Inf`/`NaN` spellings and grouping underscores; no claim involves those.) -/
def acceptFloat (s : List Char) : Bool :=
  let s := match s with
    | '+' :: r => r
    | '-' :: r => r
    | r => r
  let ds := s.takeWhile (fun c => decide ('0' ≤ c ∧ c ≤ '9'))
  let rest := s.dropWhile (fun c => decide ('0' ≤ c ∧ c ≤ '9'))
  match rest with
  | '.' :: r2 =>
    let ds2 := r2.takeWhile (fun c => decide ('0' ≤ c ∧ c ≤ '9'))
    let rest2 := r2.dropWhile (fun c => decide ('0' ≤ c ∧ c ≤ '9'))
    (ds ≠ [] || ds2 ≠ []) && acceptExp rest2
  | _ => ds ≠ [] && acceptExp rest

/-- String-level wrapper of `acceptFloat`. -/
def acceptFloatS (s : String) : Bool :=
  acceptFloat s.data

/-! ## Annotation handling (`getTag`, `getSeparator`, `getOperators`) -/

/-- Loop body of `getTag`: scan the space-separated annotation tokens for the
first `tag:value` pair naming the requested tag (source `getTag`). -/
def getTagAux (tag : String) : List String → String
  | [] => ""
  | t :: ts =>
    match splitS t ":" with
    | [a, b] => if a = tag then b else getTagAux tag ts
    | _ => getTagAux tag ts

/-- Source `getTag`: extract the value of option `tag` from a field's raw
`qparams` annotation text, the empty string when absent. -/
def getTag (tag tags : String) : String :=
  if tags = "" then "" else getTagAux tag (splitS tags " ")

/-- Source `getSeparator`: the `sep` option, defaulting to `","`. -/
def getSeparator (tags : String) : String :=
  let s := getTag "sep" tags
  if s = "" then "," else s

/-- Source `getOperators`: the `ops` option split on `","` (the
`mapOpsTagSeparator`), defaulting to the empty vocabulary. -/
def getOperators (tags : String) : List String :=
  let ops := getTag "ops" tags
  if ops = "" then [] else splitS ops ","

/-! ## The filter tokenizer (`walk`) and its pieces -/

/-- Insert a binding into an association list with Go-map semantics: replace
the first binding of the same key, or append a fresh binding. -/
def insertAssoc : List (String × String) → String × String → List (String × String)
  | [], e => [e]
  | kv :: rest, e => if kv.1 = e.1 then e :: rest else kv :: insertAssoc rest e

/-- Scan an operator vocabulary in caller order and return the first operator
that occurs as a substring of the segment, with the segment split at that
operator's first occurrence. -/
def findOp (ops : List String) (seg : List Char) : Option (String × List Char × List Char) :=
  match ops with
  | [] => none
  | op :: rest =>
    match splitAtFirst op.data seg with
    | some (l, r) => some (op, l, r)
    | none => findOp rest seg

/-- The map entry a single filter segment produces: composite key
`"<lower-cased, trimmed field token> <operator>"` and the verbatim operand,
or `none` when no configured operator occurs in the segment. -/
def segEntry (ops : List String) (seg : String) : Option (String × String) :=
  (findOp ops seg.data).map fun olr =>
    (String.mk ((trimWS olr.2.1).map lowerChar) ++ " " ++ olr.1, String.mk olr.2.2)

/-- The non-empty segments of a composite filter value: split on the
separator and discard empty segments. -/
def walkSegs (value sep : String) : List String :=
  (splitS value sep).filter (· ≠ "")

/-- Modelled from the spec: the body of the Filter Tokenizer `walk` is called
from `parseMap` but its source file is not part of the repository snapshot.
Following spec §4.2: split the value on the separator discarding empty
segments; for each segment take the first operator of the vocabulary (in
caller order) occurring as a substring, split the segment at that operator's
first occurrence, lower-case and whitespace-trim the field token, keep the
operand verbatim, and set/overwrite the binding of the composite key
`"<field token> <operator>"`; segments matching no operator are skipped. -/
def walk (value sep : String) (ops : List String) : List (String × String) :=
  (walkSegs value sep).foldl
    (fun m seg =>
      match segEntry ops seg with
      | none => m
      | some e => insertAssoc m e)
    []

/-- Source `parseMap` (minus the reflective write-back): resolve separator
and operator vocabulary from the annotation and tokenize the value. -/
def parseMap (tags queryValue : String) : List (String × String) :=
  walk queryValue (getSeparator tags) (getOperators tags)

/-- Source `parseSlice` (minus the reflective write-back): split the value on
the resolved separator, lower-case every token and keep the non-empty ones in
source order. -/
def parseSlice (tags queryValue : String) : List String :=
  (splitS queryValue (getSeparator tags)).foldl
    (fun acc val =>
      let v := lowerStr val
      if v ≠ "" then acc ++ [v] else acc)
    []

/-! ## `Slice.ToIntSlice` and `Slice.ToFloatSlice` -/

/-- The conversion-failure message of `Slice.ToIntSlice`. -/
def intMemberMsg (v : String) : String :=
  "Could not convert member " ++ v ++ " to int"

/-- The conversion-failure message of `Slice.ToFloatSlice`. -/
def floatMemberMsg (v : String) : String :=
  "Could not convert member " ++ v ++ " to float"

/-- Loop of `Slice.ToIntSlice`, threading the single (overwritten) error
variable: convert each member with `strconv.Atoi`, append successes, replace
the error on each failure. -/
def toIntSliceAux (err : Option String) : List String → List Int × Option String
  | [] => ([], err)
  | v :: vs =>
    match goAtoiS v with
    | none => toIntSliceAux (some (intMemberMsg v)) vs
    | some i =>
      let p := toIntSliceAux err vs
      (i :: p.1, p.2)

/-- Source `Slice.ToIntSlice`. -/
def toIntSlice (s : List String) : List Int × Option String :=
  toIntSliceAux none s

/-- Loop of `Slice.ToFloatSlice`; a successfully parsed float is represented
by its accepted literal (no claim uses float arithmetic). -/
def toFloatSliceAux (err : Option String) : List String → List String × Option String
  | [] => ([], err)
  | v :: vs =>
    if acceptFloatS v then
      let p := toFloatSliceAux err vs
      (v :: p.1, p.2)
    else toFloatSliceAux (some (floatMemberMsg v)) vs

/-- Source `Slice.ToFloatSlice`. -/
def toFloatSlice (s : List String) : List String × Option String :=
  toFloatSliceAux none s

/-! ## The decode engine (`Parse`) -/

/-- The semantic kind of a destination field, the closed set of kinds the
engine's two `switch` statements dispatch on. -/
inductive Kind where
  | kInt
  | kInt32
  | kInt64
  | kFloat64
  | kFloat32
  | kStr
  | kSlice
  | kMap
deriving DecidableEq

/-- A destination field's value.  `vSlice none` / `vMap none` model a nil Go
slice/map; floats are carried by their accepted literal. -/
inductive FieldVal where
  | vInt (n : Int)
  | vInt32 (n : Int)
  | vInt64 (n : Int)
  | vFloat64 (lit : String)
  | vFloat32 (lit : String)
  | vString (s : String)
  | vSlice (elems : Option (List String))
  | vMap (entries : Option (List (String × String)))
deriving DecidableEq

/-- The reflect kind of a field value. -/
def FieldVal.kind : FieldVal → Kind
  | .vInt _ => .kInt
  | .vInt32 _ => .kInt32
  | .vInt64 _ => .kInt64
  | .vFloat64 _ => .kFloat64
  | .vFloat32 _ => .kFloat32
  | .vString _ => .kStr
  | .vSlice _ => .kSlice
  | .vMap _ => .kMap

/-- Whether a field value is an uninitialized (nil) container. -/
def FieldVal.isNilContainer : FieldVal → Bool
  | .vSlice none => true
  | .vMap none => true
  | _ => false

/-- One destination struct field: Go field identifier, raw `qparams`
annotation text, current value. -/
structure GoField where
  name : String
  tag : String
  val : FieldVal
deriving DecidableEq

/-- The effective parameter name of a field: lower-cased field identifier,
overridden verbatim by a non-empty `name` annotation (source `Parse`,
lines 136–141). -/
def effName (f : GoField) : String :=
  let t := getTag "name" f.tag
  if t = "" then lowerStr f.name else t

/-- The query parameter set (`url.Values`): parameter name to raw values. -/
abbrev QV := List (String × List String)

/-- All raw values currently stored under an exact key (`v[key]`). -/
def qvGetAll : QV → String → List String
  | [], _ => []
  | e :: rest, k => if e.1 = k then e.2 else qvGetAll rest k

/-- `url.Values.Get`: the first raw value under the exact key, `""` when the
key is absent or has no values. -/
def qvGet (qv : QV) (k : String) : String :=
  (qvGetAll qv k).headD ""

/-- Go map assignment `v[key] = vals`: replace the (first) binding of the
key, or append a fresh one. -/
def qvSet (qv : QV) (k : String) (vals : List String) : QV :=
  match qv with
  | [] => [(k, vals)]
  | e :: rest => if e.1 = k then (k, vals) :: rest else e :: qvSet rest k vals

/-- `reflect.MakeSlice`/`reflect.MakeMap` on a nil container (source `Parse`,
lines 166–167 and 176–177); other values are untouched. -/
def initIfNil : FieldVal → FieldVal
  | .vSlice none => .vSlice (some [])
  | .vMap none => .vMap (some [])
  | v => v

/-- The rewrite loop's key-match test (`fieldName != key` guard on the
lower-cased query key, source line 148). -/
def matchesName (fName : String) (e : String × List String) : Bool :=
  fName = lowerStr e.1

/-- What the rewrite loop writes back for one matching entry: containers get
their raw values boundary-trimmed of `","+sep` and joined into one composite
(`","` joiner for maps, the field separator for slices, source lines 156–158,
172 and 183); scalar fields write the raw values back unchanged (line 185). -/
def rewritePayload (sep : String) (k : Kind) (e : String × List String) : List String :=
  match k with
  | .kSlice => [joinSep sep (e.2.map (fun n => trimCutS ("," ++ sep) n))]
  | .kMap => [joinSep "," (e.2.map (fun n => trimCutS ("," ++ sep) n))]
  | _ => e.2

/-- The field-value effect of one matching rewrite iteration: a nil
container is initialized (source lines 166–167 and 176–177), every other
value is untouched. -/
def rewriteVal (k : Kind) (v : FieldVal) : FieldVal :=
  match k with
  | .kSlice => initIfNil v
  | .kMap => initIfNil v
  | _ => v

/-- One iteration of the rewrite loop of `Parse` (lines 145–187) for one
query entry: on a (lower-cased) key match, write the payload back under the
lower-cased key and update the field value; otherwise leave both untouched.
The entry's snapshot values are read (see the header note on Go map
iteration order). -/
def rewriteEntry (fName sep : String) (k : Kind) (acc : QV × FieldVal)
    (e : String × List String) : QV × FieldVal :=
  if matchesName fName e then
    (qvSet acc.1 (lowerStr e.1) (rewritePayload sep k e), rewriteVal k acc.2)
  else acc

/-- The coercion-failure message of `parseInt`/`parseInt64`. -/
def intFieldMsg (name raw : String) : String :=
  "Field " ++ name ++ " does not contain a valid integer (" ++ raw ++ ")"

/-- The coercion-failure message of `parseFloat`. -/
def floatFieldMsg (name raw : String) : String :=
  "Field " ++ name ++ " does not contain a valid float (" ++ raw ++ ")"

/-- Tail of the per-field processing after the rewrite loop (source lines
189–228): skip the field when the effective value is empty, otherwise
dispatch containers to `parseMap`/`parseSlice` and scalars to the coercers.
Returns the updated query set, the field's new value and an optional
coercion message, or `none` for a Go panic: `parseInt` builds a
`reflect.Value` of type `int` and `parseFloat` one of type `float64`, and
`reflect.Value.Set` panics when that value is not assignable to an `int32`
resp. `float32` field. -/
def processFieldCont (f : GoField) (qv1 : QV) (v1 : FieldVal) (queryValue : String) :
    Option (QV × FieldVal × Option String) :=
  if queryValue = "" then some (qv1, v1, none)
  else
    match f.val.kind with
    | .kMap => some (qv1, .vMap (some (parseMap f.tag queryValue)), none)
    | .kSlice => some (qv1, .vSlice (some (parseSlice f.tag queryValue)), none)
    | .kInt =>
      match goAtoiS queryValue with
      | some i => some (qv1, .vInt i, none)
      | none => some (qv1, v1, some (intFieldMsg f.name queryValue))
    | .kInt32 =>
      match goAtoiS queryValue with
      | some _ => none
      | none => some (qv1, v1, some (intFieldMsg f.name queryValue))
    | .kInt64 =>
      match goAtoiS queryValue with
      | some i => some (qv1, .vInt64 i, none)
      | none => some (qv1, v1, some (intFieldMsg f.name queryValue))
    | .kFloat64 =>
      if acceptFloatS queryValue then some (qv1, .vFloat64 queryValue, none)
      else some (qv1, v1, some (floatFieldMsg f.name queryValue))
    | .kFloat32 =>
      if acceptFloatS queryValue then none
      else some (qv1, v1, some (floatFieldMsg f.name queryValue))
    | .kStr => some (qv1, .vString queryValue, none)

/-- Process one destination field (the body of `Parse`'s field loop, lines
121–231): run the rewrite loop over the query entries, look up the single
effective value under the effective name, and hand both to
`processFieldCont`. -/
def processField (qv : QV) (f : GoField) : Option (QV × FieldVal × Option String) :=
  let fName := effName f
  let sep := getSeparator f.tag
  let st := qv.foldl (rewriteEntry fName sep f.val.kind) (qv, f.val)
  processFieldCont f st.1 st.2 (qvGet st.1 fName)

/-- The single effective value looked up for a destination field after the
rewrite loop (spec glossary: "Effective value"; source line 189). -/
def effValue (qv : QV) (f : GoField) : String :=
  qvGet ((qv.foldl (rewriteEntry (effName f) (getSeparator f.tag) f.val.kind) (qv, f.val))).1
    (effName f)

/-- Fold `processField` over the destination fields, threading the (rewritten)
query set and collecting coercion messages in field order; `none` propagates
a panic. -/
def parseFields (qv : QV) : List GoField → Option (List GoField × QV × List String)
  | [] => some ([], qv, [])
  | f :: fs =>
    match processField qv f with
    | none => none
    | some (qv', v', errOpt) =>
      match parseFields qv' fs with
      | none => none
      | some (gs, qv'', errs) => some ({ f with val := v' } :: gs, qv'', errOpt.toList ++ errs)

/-- The shape of the destination argument: only a pointer to a struct is
decodable; a struct passed by value, a pointer to a non-struct, or anything
else fails the shape check. -/
inductive Dest where
  | structPtr (fields : List GoField)
  | structVal (fields : List GoField)
  | ptrNonStruct
  | otherVal
deriving DecidableEq

/-- The error result of `Parse`: the `ErrWrongDestType` sentinel, or the
collected `TypeConvErrors` messages. -/
inductive ParseError where
  | wrongDestType
  | typeConv (msgs : List String)
deriving DecidableEq

/-- The observable outcome of a `Parse` call: a Go panic, or a normal return
with the (possibly mutated) destination and the returned error. -/
inductive ParseOutcome where
  | panicked
  | normal (d : Dest) (err : Option ParseError)
deriving DecidableEq

/-- Source `Parse`: reject any destination that is not a pointer to a struct
with `ErrWrongDestType` (touching nothing), otherwise decode every field in
order and return the collected coercion messages when any occurred. -/
def Parse (d : Dest) (qv : QV) : ParseOutcome :=
  match d with
  | .structPtr fields =>
    match parseFields qv fields with
    | none => .panicked
    | some (fields', _, errs) =>
      .normal (.structPtr fields') (if errs = [] then none else some (.typeConv errs))
  | d => .normal d (some .wrongDestType)

/-! ## General lemmas about the embedding -/

theorem beginsWith_iff (p l : List Char) : beginsWith p l = true ↔ ∃ t, l = p ++ t := by
  induction p generalizing l with
  | nil => simp [beginsWith]
  | cons a as ih =>
    cases l with
    | nil => simp [beginsWith]
    | cons b bs =>
      simp only [beginsWith, Bool.and_eq_true, decide_eq_true_eq, ih]
      constructor
      · rintro ⟨rfl, t, rfl⟩
        exact ⟨t, rfl⟩
      · rintro ⟨t, ht⟩
        injection ht with h1 h2
        exact ⟨h1.symm, t, h2⟩

theorem splitAtFirst_eq_append {pat s l r : List Char}
    (h : splitAtFirst pat s = some (l, r)) : s = l ++ pat ++ r := by
  induction s generalizing l r with
  | nil =>
    unfold splitAtFirst at h
    split at h
    · rename_i hb
      obtain ⟨t, ht⟩ := (beginsWith_iff pat []).mp hb
      rcases List.append_eq_nil.mp ht.symm with ⟨rfl, rfl⟩
      simp at h
      obtain ⟨rfl, rfl⟩ := h
      rfl
    · exact absurd h (by simp)
  | cons c cs ih =>
    unfold splitAtFirst at h
    split at h
    · rename_i hb
      obtain ⟨t, ht⟩ := (beginsWith_iff pat (c :: cs)).mp hb
      simp only [Option.some.injEq, Prod.mk.injEq] at h
      obtain ⟨rfl, hr⟩ := h
      subst hr
      simp [ht, List.drop_left]
    · rename_i hb
      cases hsp : splitAtFirst pat cs with
      | none => rw [hsp] at h; simp at h
      | some p =>
        rw [hsp] at h
        cases p with
        | mk l2 r2 =>
          simp only [Option.some.injEq, Prod.mk.injEq] at h
          obtain ⟨rfl, rfl⟩ := h
          have := ih hsp
          simp [this]

theorem splitAtFirst_min {pat s l r : List Char}
    (h : splitAtFirst pat s = some (l, r)) :
    ∀ l' r', s = l' ++ pat ++ r' → l.length ≤ l'.length := by
  induction s generalizing l r with
  | nil =>
    intro l' r' he
    unfold splitAtFirst at h
    split at h
    · simp at h
      simp [h.1]
    · simp at h
  | cons c cs ih =>
    intro l' r' he
    unfold splitAtFirst at h
    split at h
    · simp only [Option.some.injEq, Prod.mk.injEq] at h
      simp [h.1.symm]
    · rename_i hb
      cases hsp : splitAtFirst pat cs with
      | none => rw [hsp] at h; simp at h
      | some p =>
        rw [hsp] at h
        cases p with
        | mk l2 r2 =>
          simp only [Option.some.injEq, Prod.mk.injEq] at h
          obtain ⟨rfl, rfl⟩ := h
          cases l' with
          | nil =>
            exfalso
            simp only [List.nil_append] at he
            exact absurd ((beginsWith_iff pat (c :: cs)).mpr ⟨r', he⟩) (by simp [hb])
          | cons c' l'' =>
            injection he with h1 h2
            simpa using Nat.succ_le_succ (ih hsp l'' r' h2)

theorem splitAtFirst_not_occur {pat s : List Char}
    (h : splitAtFirst pat s = none) : ∀ l r, s ≠ l ++ pat ++ r := by
  induction s with
  | nil =>
    intro l r he
    unfold splitAtFirst at h
    split at h
    · simp at h
    · rename_i hb
      rcases List.append_eq_nil.mp (List.append_eq_nil.mp he.symm).1 with ⟨rfl, rfl⟩
      simp [beginsWith] at hb
  | cons c cs ih =>
    intro l r he
    unfold splitAtFirst at h
    split at h
    · simp at h
    · rename_i hb
      cases hsp : splitAtFirst pat cs with
      | some p => rw [hsp] at h; cases p; simp at h
      | none =>
        cases l with
        | nil =>
          simp only [List.nil_append] at he
          exact absurd ((beginsWith_iff pat (c :: cs)).mpr ⟨r, he⟩) (by simp [hb])
        | cons c' l'' =>
          injection he with h1 h2
          exact ih hsp l'' r h2

theorem findOp_spec {ops : List String} {seg : List Char} {op : String}
    {l r : List Char} (h : findOp ops seg = some (op, l, r)) :
    ∃ pre post, ops = pre ++ op :: post ∧
      (∀ o ∈ pre, splitAtFirst o.data seg = none) ∧
      splitAtFirst op.data seg = some (l, r) := by
  induction ops with
  | nil => simp [findOp] at h
  | cons o os ih =>
    unfold findOp at h
    cases hsp : splitAtFirst o.data seg with
    | some p =>
      rw [hsp] at h
      cases p with
      | mk l2 r2 =>
        simp only [Option.some.injEq, Prod.mk.injEq] at h
        obtain ⟨rfl, rfl, rfl⟩ := h
        exact ⟨[], os, rfl, by simp, hsp⟩
    | none =>
      rw [hsp] at h
      obtain ⟨pre, post, hops, hpre, hsp2⟩ := ih h
      refine ⟨o :: pre, post, by simp [hops], ?_, hsp2⟩
      intro o' ho'
      rcases List.mem_cons.mp ho' with rfl | ho'
      · exact hsp
      · exact hpre o' ho'

theorem mem_insertAssoc {m : List (String × String)} {e e' : String × String}
    (h : e' ∈ insertAssoc m e) : e' = e ∨ e' ∈ m := by
  induction m with
  | nil => simp [insertAssoc] at h; simp [h]
  | cons kv rest ih =>
    unfold insertAssoc at h
    split at h
    · rcases List.mem_cons.mp h with rfl | h
      · exact Or.inl rfl
      · exact Or.inr (List.mem_cons_of_mem _ h)
    · rcases List.mem_cons.mp h with rfl | h
      · exact Or.inr (List.mem_cons_self _ _)
      · rcases ih h with h | h
        · exact Or.inl h
        · exact Or.inr (List.mem_cons_of_mem _ h)

theorem self_mem_insertAssoc (m : List (String × String)) (e : String × String) :
    e ∈ insertAssoc m e := by
  induction m with
  | nil => simp [insertAssoc]
  | cons kv rest ih =>
    unfold insertAssoc
    split
    · exact List.mem_cons_self _ _
    · exact List.mem_cons_of_mem _ ih

theorem insertAssoc_keeps {m : List (String × String)} {k v : String}
    (e : String × String) (h : (k, v) ∈ m) :
    ∃ v', (k, v') ∈ insertAssoc m e := by
  by_cases hk : k = e.1
  · exact ⟨e.2, by simpa [hk] using self_mem_insertAssoc m e⟩
  · induction m with
    | nil => simp at h
    | cons kv rest ih =>
      unfold insertAssoc
      split
      · rename_i he
        rcases List.mem_cons.mp h with rfl | h
        · exact absurd he hk
        · exact ⟨v, List.mem_cons_of_mem _ h⟩
      · rcases List.mem_cons.mp h with rfl | h
        · exact ⟨v, List.mem_cons_self _ _⟩
        · obtain ⟨v', hv'⟩ := ih h
          exact ⟨v', List.mem_cons_of_mem _ hv'⟩

/-- Generic fold step of `walk`. -/
def walkStep (ops : List String) (m : List (String × String)) (seg : String) :
    List (String × String) :=
  match segEntry ops seg with
  | none => m
  | some e => insertAssoc m e

theorem walk_eq_foldl (value sep : String) (ops : List String) :
    walk value sep ops = (walkSegs value sep).foldl (walkStep ops) [] := by
  rfl

theorem mem_foldl_walkStep {ops : List String} {segs : List String}
    {m : List (String × String)} {kv : String × String}
    (h : kv ∈ segs.foldl (walkStep ops) m) :
    kv ∈ m ∨ ∃ seg ∈ segs, segEntry ops seg = some kv := by
  induction segs generalizing m with
  | nil => simp at h; exact Or.inl h
  | cons seg rest ih =>
    simp only [List.foldl_cons] at h
    rcases ih h with h2 | h2
    · unfold walkStep at h2
      cases hse : segEntry ops seg with
      | none => rw [hse] at h2; exact Or.inl h2
      | some e =>
        rw [hse] at h2
        rcases mem_insertAssoc h2 with rfl | h3
        · exact Or.inr ⟨seg, List.mem_cons_self _ _, hse⟩
        · exact Or.inl h3
    · obtain ⟨s, hs, he⟩ := h2
      exact Or.inr ⟨s, List.mem_cons_of_mem _ hs, he⟩

theorem foldl_walkStep_keeps {ops : List String} (segs : List String)
    {m : List (String × String)} {k v : String} (h : (k, v) ∈ m) :
    ∃ v', (k, v') ∈ segs.foldl (walkStep ops) m := by
  induction segs generalizing m v with
  | nil => exact ⟨v, h⟩
  | cons seg rest ih =>
    simp only [List.foldl_cons]
    unfold walkStep
    cases hse : segEntry ops seg with
    | none => exact ih h
    | some e =>
      obtain ⟨v', hv'⟩ := insertAssoc_keeps e h
      exact ih hv'

theorem foldl_walkStep_key {ops : List String} {segs : List String} {seg : String}
    (hseg : seg ∈ segs) {k v : String} (he : segEntry ops seg = some (k, v)) :
    ∀ m, ∃ v', (k, v') ∈ segs.foldl (walkStep ops) m := by
  induction segs with
  | nil => simp at hseg
  | cons s rest ih =>
    intro m
    simp only [List.foldl_cons]
    rcases List.mem_cons.mp hseg with rfl | hseg
    · have hmem : (k, v) ∈ walkStep ops m seg := by
        unfold walkStep
        rw [he]
        exact self_mem_insertAssoc m _
      exact foldl_walkStep_keeps rest hmem
    · exact ih hseg _

theorem walk_key_of_segEntry {value sep : String} {ops : List String}
    {seg : String} (hseg : seg ∈ walkSegs value sep) {k v : String}
    (he : segEntry ops seg = some (k, v)) :
    ∃ v', (k, v') ∈ walk value sep ops := by
  rw [walk_eq_foldl]
  exact foldl_walkStep_key hseg he []

theorem segEntry_inv {ops : List String} {seg : String} {k v : String}
    (h : segEntry ops seg = some (k, v)) :
    ∃ op l r, findOp ops seg.data = some (op, l, r) ∧
      k = String.mk ((trimWS l).map lowerChar) ++ " " ++ op ∧ v = String.mk r := by
  unfold segEntry at h
  cases hf : findOp ops seg.data with
  | none => rw [hf] at h; simp at h
  | some olr =>
    rw [hf] at h
    simp only [Option.map_some', Option.some.injEq, Prod.mk.injEq] at h
    exact ⟨olr.1, olr.2.1, olr.2.2, rfl, h.1.symm, h.2.symm⟩

/-- C1: on a map-typed field, every binding the filter tokenizer produces
decomposes a filter segment at a configured operator: the key is the
lower-cased (whitespace-trimmed) field token joined to the operator by a
single space, and the value is the verbatim operand — the literal suffix of
the segment after the operator, never lower-cased; conversely every segment
containing a configured operator contributes its composite key to the map.
The witness instantiates this at `filter=Lastname-like-Doe` with a
vocabulary containing `-like-`, whose entry is
`"lastname -like-" ↦ "Doe"` (capital preserved). -/
theorem walk_key_lowercased_value_verbatim (value sep : String) (ops : List String) :
    (∀ k v, (k, v) ∈ walk value sep ops →
      ∃ seg ∈ walkSegs value sep, ∃ op ∈ ops, ∃ l r : List Char,
        seg.data = l ++ op.data ++ r ∧
        k = String.mk ((trimWS l).map lowerChar) ++ " " ++ op ∧
        v = String.mk r) ∧
    (∀ seg ∈ walkSegs value sep, ∀ k v, segEntry ops seg = some (k, v) →
      ∃ v', (k, v') ∈ walk value sep ops) := by
  constructor
  · intro k v hmem
    rw [walk_eq_foldl] at hmem
    rcases mem_foldl_walkStep hmem with h | ⟨seg, hseg, he⟩
    · exact absurd h (List.not_mem_nil _)
    · obtain ⟨op, l, r, hf, hk, hv⟩ := segEntry_inv he
      obtain ⟨pre, post, hops, _, hsp⟩ := findOp_spec hf
      exact ⟨seg, hseg, op, by simp [hops], l, r, splitAtFirst_eq_append hsp, hk, hv⟩
  · intro seg hseg k v he
    exact walk_key_of_segEntry hseg he

theorem walk_key_lowercased_value_verbatim_witness :
    ∃ seg ∈ walkSegs "Lastname-like-Doe" ",",
      ∃ op ∈ [">", "==", "<=", "<", "!=", "-like-"], ∃ l r : List Char,
        seg.data = l ++ op.data ++ r ∧
        "lastname -like-" = String.mk ((trimWS l).map lowerChar) ++ " " ++ op ∧
        "Doe" = String.mk r :=
  (walk_key_lowercased_value_verbatim "Lastname-like-Doe" ","
      [">", "==", "<=", "<", "!=", "-like-"]).1
    "lastname -like-" "Doe" (by decide)

/-- C2: for every filter segment and operator vocabulary, the tokenizer
selects the first operator in the caller-supplied vocabulary order that
occurs as a substring of the segment — no earlier-listed operator occurs in
the segment at all — and splits the segment at that operator's leftmost
occurrence (no decomposition has a shorter left part).  The witness
instantiates this at vocabulary `[">", "==", "<=", "<", "!=", "-like-"]` and
segment `"balance<=1000"`, which yields key `"balance <="` with operand
`"1000"` rather than a split on the later-listed `"<"`. -/
theorem findOp_first_in_vocab_first_occurrence (ops : List String) (seg : String)
    (op : String) (l r : List Char) (h : findOp ops seg.data = some (op, l, r)) :
    (∃ pre post, ops = pre ++ op :: post ∧
        ∀ o ∈ pre, ∀ l' r' : List Char, seg.data ≠ l' ++ o.data ++ r') ∧
    seg.data = l ++ op.data ++ r ∧
    (∀ l' r' : List Char, seg.data = l' ++ op.data ++ r' → l.length ≤ l'.length) ∧
    segEntry ops seg = some (String.mk ((trimWS l).map lowerChar) ++ " " ++ op, String.mk r) := by
  obtain ⟨pre, post, hops, hpre, hsp⟩ := findOp_spec h
  refine ⟨⟨pre, post, hops, ?_⟩, splitAtFirst_eq_append hsp, splitAtFirst_min hsp, ?_⟩
  · intro o ho l' r'
    exact splitAtFirst_not_occur (hpre o ho) l' r'
  · unfold segEntry
    rw [h]
    rfl

theorem findOp_first_in_vocab_first_occurrence_witness :
    walk "balance<=1000" "," [">", "==", "<=", "<", "!=", "-like-"]
        = [("balance <=", "1000")] ∧
      ((∃ pre post, ([">", "==", "<=", "<", "!=", "-like-"] : List String) = pre ++ "<=" :: post ∧
          ∀ o ∈ pre, ∀ l' r' : List Char, ("balance<=1000" : String).data ≠ l' ++ o.data ++ r') ∧
        ("balance<=1000" : String).data = "balance".data ++ ("<=" : String).data ++ "1000".data ∧
        (∀ l' r' : List Char,
          ("balance<=1000" : String).data = l' ++ ("<=" : String).data ++ r' →
            ("balance" : String).data.length ≤ l'.length) ∧
        segEntry [">", "==", "<=", "<", "!=", "-like-"] "balance<=1000"
          = some (String.mk ((trimWS "balance".data).map lowerChar) ++ " " ++ "<=", String.mk "1000".data)) :=
  ⟨by decide,
    findOp_first_in_vocab_first_occurrence [">", "==", "<=", "<", "!=", "-like-"]
      "balance<=1000" "<=" "balance".data "1000".data (by decide)⟩

theorem parseSlice_foldl (l acc : List String) :
    l.foldl (fun acc val => let v := lowerStr val; if v ≠ "" then acc ++ [v] else acc) acc
      = acc ++ (l.map lowerStr).filter (fun t => t ≠ "") := by
  induction l generalizing acc with
  | nil => simp
  | cons x xs ih =>
    rw [List.foldl_cons, ih]
    by_cases hx : lowerStr x = ""
    · simp [hx, List.filter_cons]
    · simp [hx, List.filter_cons, List.append_assoc]

/-- C3: list decoding returns exactly the tokens obtained by splitting the
value on the resolved separator, each lower-cased, with empty tokens
discarded, in source order — and, being a total function, it never fails;
in particular both `"User,Order,"` and `",User,Order,"` yield
`["user", "order"]`. -/
theorem parseSlice_split_lower_filter (tags qv : String) :
    parseSlice tags qv
        = ((splitS qv (getSeparator tags)).map lowerStr).filter (fun t => t ≠ "") ∧
      parseSlice "" "User,Order," = ["user", "order"] ∧
      parseSlice "" ",User,Order," = ["user", "order"] := by
  refine ⟨?_, by decide, by decide⟩
  unfold parseSlice
  simpa using parseSlice_foldl (splitS qv (getSeparator tags)) []

/-- C4: for every destination that is not a pointer to a struct and every
query parameter set, `Parse` returns the single `ErrWrongDestType` sentinel
and leaves the destination untouched (the returned destination is the input
one, unchanged). -/
theorem parse_wrong_dest_sentinel (d : Dest) (qv : QV)
    (h : ∀ fields, d ≠ .structPtr fields) :
    Parse d qv = .normal d (some .wrongDestType) := by
  cases d with
  | structPtr fields => exact absurd rfl (h fields)
  | structVal fields => rfl
  | ptrNonStruct => rfl
  | otherVal => rfl

theorem parse_wrong_dest_sentinel_witness :
    Parse (.structVal [⟨"Age", "", .vInt 5⟩]) [("age", ["7"])]
      = .normal (.structVal [⟨"Age", "", .vInt 5⟩]) (some .wrongDestType) :=
  parse_wrong_dest_sentinel (.structVal [⟨"Age", "", .vInt 5⟩]) [("age", ["7"])]
    (fun fields h => by cases h)

/-- C5 (code bug): the claim says the 32-bit scalar fields (`int32`,
`float32`) share the success contract of the default-width coercers, but the
code panics on every successfully parsed value: `parseInt` wraps a Go `int`
and `parseFloat` a `float64` in a `reflect.Value`, and `reflect.Value.Set`
panics because those types are not assignable to an `int32` resp. `float32`
field.  This theorem evaluates the model at the failing inputs
(`int32` field with `age=7`, `float32` field with `rate=1.5`), whose raw
values do parse as base-10 numbers. -/
theorem parse_int32_float32_panics :
    Parse (.structPtr [⟨"Age", "", .vInt32 0⟩]) [("age", ["7"])] = .panicked ∧
    Parse (.structPtr [⟨"Rate", "", .vFloat32 "0"⟩]) [("rate", ["1.5"])] = .panicked ∧
    goAtoiS "7" = some 7 ∧ acceptFloatS "1.5" = true := by
  refine ⟨by decide, by decide, by decide, by decide⟩

theorem toIntSliceAux_fst (s : List String) (err : Option String) :
    (toIntSliceAux err s).1 = s.filterMap goAtoiS := by
  induction s generalizing err with
  | nil => rfl
  | cons v vs ih =>
    unfold toIntSliceAux
    cases hv : goAtoiS v with
    | none => simp [List.filterMap_cons, hv, ih]
    | some i => simp [List.filterMap_cons, hv, ih]

theorem toIntSliceAux_snd (s : List String) (err : Option String) :
    (toIntSliceAux err s).2
      = ((s.filter (fun v => (goAtoiS v).isNone)).getLast?).elim err
          (fun v => some (intMemberMsg v)) := by
  induction s generalizing err with
  | nil => rfl
  | cons v vs ih =>
    unfold toIntSliceAux
    cases hv : goAtoiS v with
    | none =>
      rw [List.filter_cons_of_pos (by rw [hv]; rfl)]
      rw [ih]
      cases hh : vs.filter (fun v => (goAtoiS v).isNone) with
      | nil => rfl
      | cons a l =>
        rw [List.getLast?_cons_cons]
        have hs : (a :: l).getLast?.isSome := by
          rw [List.getLast?_isSome]
          simp
        obtain ⟨w, hw⟩ := Option.isSome_iff_exists.mp hs
        rw [hw]
        rfl
    | some i =>
      rw [List.filter_cons_of_neg (by rw [hv]; simp)]
      rw [ih]

theorem toFloatSliceAux_fst (s : List String) (err : Option String) :
    (toFloatSliceAux err s).1 = s.filter (fun v => acceptFloatS v) := by
  induction s generalizing err with
  | nil => rfl
  | cons v vs ih =>
    unfold toFloatSliceAux
    by_cases hv : acceptFloatS v = true
    · rw [List.filter_cons_of_pos hv]
      simp [hv, ih]
    · rw [List.filter_cons_of_neg hv]
      simp only [Bool.not_eq_true] at hv
      simp [hv, ih]

theorem toFloatSliceAux_snd (s : List String) (err : Option String) :
    (toFloatSliceAux err s).2
      = ((s.filter (fun v => !acceptFloatS v)).getLast?).elim err
          (fun v => some (floatMemberMsg v)) := by
  induction s generalizing err with
  | nil => rfl
  | cons v vs ih =>
    unfold toFloatSliceAux
    split
    · rename_i hv
      rw [List.filter_cons_of_neg (by simp [hv])]
      exact ih err
    · rename_i hv
      rw [List.filter_cons_of_pos (by simp [Bool.not_eq_true] at hv; simp [hv])]
      rw [ih]
      cases hh : vs.filter (fun v => !acceptFloatS v) with
      | nil => rfl
      | cons a l =>
        rw [List.getLast?_cons_cons]
        have hs : (a :: l).getLast?.isSome := by
          rw [List.getLast?_isSome]
          simp
        obtain ⟨w, hw⟩ := Option.isSome_iff_exists.mp hs
        rw [hw]
        rfl

/-- C9 (counterexample): on `["xx", "yy", "1"]`, `ToIntSlice` returns the
partial result `[1]` together with an error naming only the last failing
member `"yy"`; the message does not even mention the failing member `"xx"`
(it does not occur as a substring), so the error does not describe which
members failed. -/
theorem toIntSlice_error_not_aggregated :
    toIntSlice ["xx", "yy", "1"] = ([1], some "Could not convert member yy to int") ∧
      strContains "Could not convert member yy to int" "xx" = false := by
  refine ⟨by decide, by decide⟩

/-- C9 (amended): `ToIntSlice` (and likewise `ToFloatSlice`) returns the
successfully converted members in order with failing members omitted — not
zero-filled — together with a non-nil error exactly when at least one member
fails and a nil error when all convert; the error names only the last
failing member (the loop overwrites the error variable on every failure). -/
theorem toIntSlice_last_error_partial_result (s : List String) :
    (toIntSlice s).1 = s.filterMap goAtoiS ∧
    (toIntSlice s).2 = ((s.filter (fun v => (goAtoiS v).isNone)).getLast?).map intMemberMsg ∧
    ((toIntSlice s).2 = none ↔ ∀ v ∈ s, (goAtoiS v).isSome) ∧
    (toFloatSlice s).1 = s.filter (fun v => acceptFloatS v) ∧
    (toFloatSlice s).2 = ((s.filter (fun v => !acceptFloatS v)).getLast?).map floatMemberMsg ∧
    ((toFloatSlice s).2 = none ↔ ∀ v ∈ s, acceptFloatS v = true) := by
  have h1 := toIntSliceAux_fst s none
  have h2 := toIntSliceAux_snd s none
  have h3 := toFloatSliceAux_fst s none
  have h4 := toFloatSliceAux_snd s none
  have hmapInt : ((s.filter (fun v => (goAtoiS v).isNone)).getLast?).elim
      (none : Option String) (fun v => some (intMemberMsg v))
      = ((s.filter (fun v => (goAtoiS v).isNone)).getLast?).map intMemberMsg := by
    cases (s.filter (fun v => (goAtoiS v).isNone)).getLast? <;> rfl
  have hmapFloat : ((s.filter (fun v => !acceptFloatS v)).getLast?).elim
      (none : Option String) (fun v => some (floatMemberMsg v))
      = ((s.filter (fun v => !acceptFloatS v)).getLast?).map floatMemberMsg := by
    cases (s.filter (fun v => !acceptFloatS v)).getLast? <;> rfl
  refine ⟨h1, h2.trans hmapInt, ?_, h3, h4.trans hmapFloat, ?_⟩
  · show (toIntSliceAux none s).2 = none ↔ _
    rw [h2, hmapInt, Option.map_eq_none', List.getLast?_eq_none_iff, List.filter_eq_nil_iff]
    constructor
    · intro h v hv
      simpa [Option.isNone_iff_eq_none, Option.isSome_iff_ne_none] using h v hv
    · intro h v hv
      simpa [Option.isNone_iff_eq_none, Option.isSome_iff_ne_none] using h v hv
  · show (toFloatSliceAux none s).2 = none ↔ _
    rw [h4, hmapFloat, Option.map_eq_none', List.getLast?_eq_none_iff, List.filter_eq_nil_iff]
    constructor
    · intro h v hv
      simpa using h v hv
    · intro h v hv
      simp [h v hv]

theorem qvGetAll_qvSet_self (qv : QV) (k : String) (v : List String) :
    qvGetAll (qvSet qv k v) k = v := by
  induction qv with
  | nil => simp [qvSet, qvGetAll]
  | cons e rest ih =>
    unfold qvSet
    split
    · simp [qvGetAll]
    · rename_i he
      unfold qvGetAll
      rw [if_neg he]
      exact ih

theorem rewriteVal_idem (k : Kind) (v : FieldVal) :
    rewriteVal k (rewriteVal k v) = rewriteVal k v := by
  cases k <;> cases v <;> rename_i x <;> try rfl
  all_goals cases x <;> rfl

theorem rewrite_foldl_val (fName sep : String) (k : Kind)
    (entries : List (String × List String)) (acc : QV × FieldVal) :
    (entries.foldl (rewriteEntry fName sep k) acc).2
      = if entries.any (matchesName fName) then rewriteVal k acc.2 else acc.2 := by
  induction entries generalizing acc with
  | nil => simp
  | cons e rest ih =>
    rw [List.foldl_cons, List.any_cons]
    by_cases hm : matchesName fName e = true
    · rw [ih]
      simp only [rewriteEntry, hm, if_pos, Bool.true_or, if_true]
      by_cases hr : rest.any (matchesName fName) = true
      · simp [hr, rewriteVal_idem]
      · simp only [Bool.not_eq_true] at hr
        simp [hr]
    · simp only [Bool.not_eq_true] at hm
      rw [rewriteEntry, hm]
      simp only [Bool.false_eq_true, if_neg, Bool.false_or]
      exact ih acc

theorem matchesName_key_eq {fName : String} {e : String × List String}
    (h : matchesName fName e = true) : lowerStr e.1 = fName := by
  unfold matchesName at h
  exact (of_decide_eq_true h).symm

theorem rewrite_foldl_get (fName sep : String) (k : Kind)
    (entries : List (String × List String)) (acc : QV × FieldVal) :
    qvGetAll (entries.foldl (rewriteEntry fName sep k) acc).1 fName
      = ((entries.filter (matchesName fName)).getLast?).elim
          (qvGetAll acc.1 fName) (rewritePayload sep k) := by
  induction entries generalizing acc with
  | nil => simp
  | cons e rest ih =>
    rw [List.foldl_cons]
    by_cases hm : matchesName fName e = true
    · rw [List.filter_cons_of_pos hm]
      rw [ih]
      have hkey : lowerStr e.1 = fName := matchesName_key_eq hm
      have hstep : (rewriteEntry fName sep k acc e).1
          = qvSet acc.1 fName (rewritePayload sep k e) := by
        unfold rewriteEntry
        rw [if_pos hm, hkey]
      rw [hstep, qvGetAll_qvSet_self]
      cases hh : rest.filter (matchesName fName) with
      | nil => rfl
      | cons a l =>
        rw [List.getLast?_cons_cons]
        have hs : (a :: l).getLast?.isSome := by
          rw [List.getLast?_isSome]
          simp
        obtain ⟨w, hw⟩ := Option.isSome_iff_exists.mp hs
        rw [hw]
        rfl
    · rw [List.filter_cons_of_neg hm]
      have hstep : rewriteEntry fName sep k acc e = acc := by
        unfold rewriteEntry
        simp only [Bool.not_eq_true] at hm
        rw [hm]
        simp
      rw [hstep, ih]

theorem qvGetAll_of_no_match {qv : QV} {fName : String}
    (hlc : lowerStr fName = fName)
    (h : ∀ e ∈ qv, matchesName fName e = false) : qvGetAll qv fName = [] := by
  induction qv with
  | nil => rfl
  | cons e rest ih =>
    unfold qvGetAll
    have hne : e.1 ≠ fName := by
      intro he
      have := h e (List.mem_cons_self _ _)
      unfold matchesName at this
      rw [he, hlc] at this
      simp at this
    rw [if_neg hne]
    exact ih (fun e he => h e (List.mem_cons_of_mem _ he))

/-- Two query entries that agree up to the case of their key. -/
def qvRel (e1 e2 : String × List String) : Prop :=
  lowerStr e1.1 = lowerStr e2.1 ∧ e1.2 = e2.2

theorem qvRel_matches {fName : String} {e1 e2 : String × List String}
    (h : qvRel e1 e2) : matchesName fName e1 = matchesName fName e2 := by
  unfold matchesName
  rw [h.1]

theorem qvRel_any (fName : String) {qv1 qv2 : QV}
    (h : List.Forall₂ qvRel qv1 qv2) :
    qv1.any (matchesName fName) = qv2.any (matchesName fName) := by
  induction h with
  | nil => rfl
  | cons he _ ih => simp [List.any_cons, qvRel_matches he, ih]

theorem qvRel_filter (fName : String) {qv1 qv2 : QV}
    (h : List.Forall₂ qvRel qv1 qv2) :
    List.Forall₂ qvRel (qv1.filter (matchesName fName)) (qv2.filter (matchesName fName)) := by
  induction h with
  | nil => exact List.Forall₂.nil
  | cons he ht ih =>
    rename_i a b l1 l2
    by_cases hm : matchesName fName a = true
    · rw [List.filter_cons_of_pos hm, List.filter_cons_of_pos (by rw [← qvRel_matches he]; exact hm)]
      exact List.Forall₂.cons he ih
    · rw [List.filter_cons_of_neg hm, List.filter_cons_of_neg (by rw [← qvRel_matches he]; exact hm)]
      exact ih

theorem forall₂_getLast? {α : Type} {r : α → α → Prop} {l1 l2 : List α}
    (h : List.Forall₂ r l1 l2) :
    (l1.getLast? = none ∧ l2.getLast? = none) ∨
      ∃ a b, l1.getLast? = some a ∧ l2.getLast? = some b ∧ r a b := by
  induction h with
  | nil => exact Or.inl ⟨rfl, rfl⟩
  | cons he ht ih =>
    rename_i a b t1 t2
    rcases ih with ⟨h1, h2⟩ | ⟨x, y, hx, hy, hxy⟩
    · have ht1 : t1 = [] := List.getLast?_eq_none_iff.mp h1
      have ht2 : t2 = [] := List.getLast?_eq_none_iff.mp h2
      subst ht1; subst ht2
      exact Or.inr ⟨a, b, rfl, rfl, he⟩
    · have ht1 : t1 ≠ [] := by
        intro hh
        subst hh
        simp at hx
      have ht2 : t2 ≠ [] := by
        intro hh
        subst hh
        simp at hy
      obtain ⟨c, t1', rfl⟩ := List.exists_cons_of_ne_nil ht1
      obtain ⟨d, t2', rfl⟩ := List.exists_cons_of_ne_nil ht2
      exact Or.inr ⟨x, y, by rw [List.getLast?_cons_cons]; exact hx,
        by rw [List.getLast?_cons_cons]; exact hy, hxy⟩

theorem rewritePayload_congr {sep : String} {k : Kind}
    {e1 e2 : String × List String} (h : e1.2 = e2.2) :
    rewritePayload sep k e1 = rewritePayload sep k e2 := by
  cases k <;> simp [rewritePayload, h]

theorem processFieldCont_snd (f : GoField) (a b : QV) (v : FieldVal) (q : String) :
    (processFieldCont f a v q).map (fun t => t.2)
      = (processFieldCont f b v q).map (fun t => t.2) := by
  unfold processFieldCont
  by_cases hq : q = ""
  · simp [hq]
  · rw [if_neg hq, if_neg hq]
    cases f.val.kind with
    | kInt => cases goAtoiS q <;> rfl
    | kInt32 => cases goAtoiS q <;> rfl
    | kInt64 => cases goAtoiS q <;> rfl
    | kFloat64 => by_cases hf : acceptFloatS q = true <;> simp [hf]
    | kFloat32 => by_cases hf : acceptFloatS q = true <;> simp [hf]
    | kStr => rfl
    | kSlice => rfl
    | kMap => rfl

theorem parse_single_congr (f : GoField) (qv1 qv2 : QV)
    (h : (processField qv1 f).map (fun t => t.2) = (processField qv2 f).map (fun t => t.2)) :
    Parse (.structPtr [f]) qv1 = Parse (.structPtr [f]) qv2 := by
  cases h1 : processField qv1 f with
  | none =>
    cases h2 : processField qv2 f with
    | none => simp [Parse, parseFields, h1, h2]
    | some t2 => rw [h1, h2] at h; simp at h
  | some t1 =>
    cases h2 : processField qv2 f with
    | none => rw [h1, h2] at h; simp at h
    | some t2 =>
      rw [h1, h2] at h
      simp only [Option.map_some', Option.some.injEq] at h
      obtain ⟨a1, v1, e1⟩ := t1
      obtain ⟨a2, v2, e2⟩ := t2
      simp only at h
      cases h
      simp [Parse, parseFields, h1, h2]

theorem processField_key_case (f : GoField) (qv1 qv2 : QV)
    (hlc : lowerStr (effName f) = effName f)
    (hrel : List.Forall₂ qvRel qv1 qv2) :
    (processField qv1 f).map (fun t => t.2) = (processField qv2 f).map (fun t => t.2) := by
  have hpf : ∀ qv : QV, processField qv f = processFieldCont f
      (qv.foldl (rewriteEntry (effName f) (getSeparator f.tag) f.val.kind) (qv, f.val)).1
      (qv.foldl (rewriteEntry (effName f) (getSeparator f.tag) f.val.kind) (qv, f.val)).2
      (qvGet (qv.foldl (rewriteEntry (effName f) (getSeparator f.tag) f.val.kind) (qv, f.val)).1
        (effName f)) := fun _ => rfl
  have hval : (qv1.foldl (rewriteEntry (effName f) (getSeparator f.tag) f.val.kind) (qv1, f.val)).2
      = (qv2.foldl (rewriteEntry (effName f) (getSeparator f.tag) f.val.kind) (qv2, f.val)).2 := by
    rw [rewrite_foldl_val, rewrite_foldl_val, qvRel_any (effName f) hrel]
  have hget : qvGet (qv1.foldl (rewriteEntry (effName f) (getSeparator f.tag) f.val.kind) (qv1, f.val)).1 (effName f)
      = qvGet (qv2.foldl (rewriteEntry (effName f) (getSeparator f.tag) f.val.kind) (qv2, f.val)).1 (effName f) := by
    unfold qvGet
    rw [rewrite_foldl_get, rewrite_foldl_get]
    rcases forall₂_getLast? (qvRel_filter (effName f) hrel) with ⟨h1, h2⟩ | ⟨a, b, ha, hb, hab⟩
    · rw [h1, h2]
      have hn1 : qvGetAll qv1 (effName f) = [] := by
        apply qvGetAll_of_no_match hlc
        intro e he
        have := List.filter_eq_nil_iff.mp (List.getLast?_eq_none_iff.mp h1) e he
        simpa using this
      have hn2 : qvGetAll qv2 (effName f) = [] := by
        apply qvGetAll_of_no_match hlc
        intro e he
        have := List.filter_eq_nil_iff.mp (List.getLast?_eq_none_iff.mp h2) e he
        simpa using this
      simp [hn1, hn2]
    · rw [ha, hb]
      simp only [Option.elim_some]
      rw [rewritePayload_congr hab.2]
  rw [hpf qv1, hpf qv2, hval, hget]
  exact processFieldCont_snd f _ _ _ _

/-- C7 (amended): matching of the field's effective parameter name against
query parameter names is case-insensitive on the query side whenever the
effective name is lower-case — which always holds when no `name` annotation
override is given, since the field identifier is lower-cased.  Two query
parameter sets whose keys agree up to case (and whose values agree) decode
identically.  (A `name` override is used verbatim; the counterexample shows
an override containing an uppercase letter is matched case-sensitively.) -/
theorem parse_query_key_case_insensitive (f : GoField) (qv1 qv2 : QV)
    (hlc : lowerStr (effName f) = effName f)
    (hrel : List.Forall₂ qvRel qv1 qv2) :
    Parse (.structPtr [f]) qv1 = Parse (.structPtr [f]) qv2 :=
  parse_single_congr f qv1 qv2 (processField_key_case f qv1 qv2 hlc hrel)

theorem parse_query_key_case_insensitive_witness :
    Parse (.structPtr [⟨"Embed", "", .vSlice none⟩]) [("embed", ["User,Order"])]
      = Parse (.structPtr [⟨"Embed", "", .vSlice none⟩]) [("Embed", ["User,Order"])] :=
  parse_query_key_case_insensitive ⟨"Embed", "", .vSlice none⟩
    [("embed", ["User,Order"])] [("Embed", ["User,Order"])] (by decide)
    (List.Forall₂.cons ⟨by decide, rfl⟩ List.Forall₂.nil)

/-- C7 (counterexample): with a `name:Name` annotation override, the two
queries `name=x` and `Name=x` — whose parameter names differ only in case —
decode differently, refuting case-insensitivity on both sides for every
field: the override is matched verbatim, so only the exact-case key is
found by the final lookup. -/
theorem parse_name_override_case_sensitive :
    lowerStr "name" = lowerStr "Name" ∧
      Parse (.structPtr [⟨"Filter", "name:Name", .vString ""⟩]) [("name", ["x"])]
        ≠ Parse (.structPtr [⟨"Filter", "name:Name", .vString ""⟩]) [("Name", ["x"])] := by
  refine ⟨by decide, by decide⟩

theorem parse_single_none {f : GoField} {qv a : QV} {v : FieldVal}
    (h : processField qv f = some (a, v, none)) :
    Parse (.structPtr [f]) qv = .normal (.structPtr [{ f with val := v }]) none := by
  simp [Parse, parseFields, h]

/-- C8: a list- or map-typed destination field whose effective parameter
name matches some query entry is, after `Parse` returns without the shape
error, in an initialized (non-nil) state with no error reported — even when
the resulting container is empty; in particular an empty supplied value
(`Embed=`) leaves the field as an empty container and produces no error
(second conjunct). -/
theorem parse_container_initialized (f : GoField) (qv : QV)
    (hk : f.val.kind = .kSlice ∨ f.val.kind = .kMap)
    (hm : ∃ e ∈ qv, matchesName (effName f) e = true) :
    (∃ v', Parse (.structPtr [f]) qv = .normal (.structPtr [{ f with val := v' }]) none ∧
        v'.isNilContainer = false) ∧
      Parse (.structPtr [⟨"Embed", "", .vSlice none⟩]) [("Embed", [""])]
        = .normal (.structPtr [⟨"Embed", "", .vSlice (some [])⟩]) none := by
  refine ⟨?_, by decide⟩
  have hany : qv.any (matchesName (effName f)) = true := by
    obtain ⟨e, he, hme⟩ := hm
    exact List.any_eq_true.mpr ⟨e, he, hme⟩
  have hpf : processField qv f = processFieldCont f
      (qv.foldl (rewriteEntry (effName f) (getSeparator f.tag) f.val.kind) (qv, f.val)).1
      (qv.foldl (rewriteEntry (effName f) (getSeparator f.tag) f.val.kind) (qv, f.val)).2
      (qvGet (qv.foldl (rewriteEntry (effName f) (getSeparator f.tag) f.val.kind) (qv, f.val)).1
        (effName f)) := rfl
  have hst2 : (qv.foldl (rewriteEntry (effName f) (getSeparator f.tag) f.val.kind) (qv, f.val)).2
      = rewriteVal f.val.kind f.val := by
    rw [rewrite_foldl_val, hany]
    simp
  have hnil : (rewriteVal f.val.kind f.val).isNilContainer = false := by
    cases hfv : f.val with
    | vSlice x => cases x <;> rfl
    | vMap x => cases x <;> rfl
    | vInt n => rcases hk with hk | hk <;> rw [hfv] at hk <;> simp [FieldVal.kind] at hk
    | vInt32 n => rcases hk with hk | hk <;> rw [hfv] at hk <;> simp [FieldVal.kind] at hk
    | vInt64 n => rcases hk with hk | hk <;> rw [hfv] at hk <;> simp [FieldVal.kind] at hk
    | vFloat64 x => rcases hk with hk | hk <;> rw [hfv] at hk <;> simp [FieldVal.kind] at hk
    | vFloat32 x => rcases hk with hk | hk <;> rw [hfv] at hk <;> simp [FieldVal.kind] at hk
    | vString x => rcases hk with hk | hk <;> rw [hfv] at hk <;> simp [FieldVal.kind] at hk
  by_cases hq : qvGet (qv.foldl (rewriteEntry (effName f) (getSeparator f.tag) f.val.kind)
      (qv, f.val)).1 (effName f) = ""
  · refine ⟨rewriteVal f.val.kind f.val, ?_, hnil⟩
    apply parse_single_none
    rw [hpf]
    unfold processFieldCont
    rw [if_pos hq, hst2]
  · rcases hk with hk | hk
    · refine ⟨.vSlice (some (parseSlice f.tag (qvGet (qv.foldl (rewriteEntry (effName f)
        (getSeparator f.tag) f.val.kind) (qv, f.val)).1 (effName f)))), ?_, rfl⟩
      apply parse_single_none
      rw [hpf]
      unfold processFieldCont
      rw [if_neg hq, hk]
    · refine ⟨.vMap (some (parseMap f.tag (qvGet (qv.foldl (rewriteEntry (effName f)
        (getSeparator f.tag) f.val.kind) (qv, f.val)).1 (effName f)))), ?_, rfl⟩
      apply parse_single_none
      rw [hpf]
      unfold processFieldCont
      rw [if_neg hq, hk]

theorem parse_container_initialized_witness :
    (∃ v', Parse (.structPtr [⟨"Embed", "", .vSlice none⟩]) [("EMBED", ["x"])]
        = .normal (.structPtr [⟨"Embed", "", v'⟩]) none ∧
        v'.isNilContainer = false) ∧
      Parse (.structPtr [⟨"Embed", "", .vSlice none⟩]) [("Embed", [""])]
        = .normal (.structPtr [⟨"Embed", "", .vSlice (some [])⟩]) none :=
  parse_container_initialized ⟨"Embed", "", .vSlice none⟩ [("EMBED", ["x"])]
    (Or.inl rfl) ⟨("EMBED", ["x"]), by decide, by decide⟩

/-- C10: a scalar (non-container) destination field whose effective
parameter name is supplied with more than one raw value is coerced from the
first raw value only; the remaining values are ignored and no pre-joining
happens for scalar fields — decoding with `v1 :: rest` equals decoding with
`[v1]` alone. -/
theorem parse_scalar_first_value (f : GoField) (key v1 : String) (rest : List String)
    (hs : f.val.kind ≠ .kSlice) (hm : f.val.kind ≠ .kMap) :
    Parse (.structPtr [f]) [(key, v1 :: rest)] = Parse (.structPtr [f]) [(key, [v1])] := by
  have hpayload : ∀ vs : List String,
      rewritePayload (getSeparator f.tag) f.val.kind (key, vs) = vs := by
    intro vs
    cases hkk : f.val.kind <;> first
      | exact absurd hkk hs
      | exact absurd hkk hm
      | rfl
  have hrval : rewriteVal f.val.kind f.val = f.val := by
    cases hkk : f.val.kind <;> first
      | exact absurd hkk hs
      | exact absurd hkk hm
      | rfl
  have hstep : ∀ vs : List String,
      ([(key, vs)] : QV).foldl (rewriteEntry (effName f) (getSeparator f.tag) f.val.kind)
          ([(key, vs)], f.val)
        = if matchesName (effName f) (key, vs) then
            (qvSet [(key, vs)] (lowerStr key) vs, f.val)
          else ([(key, vs)], f.val) := by
    intro vs
    simp only [List.foldl_cons, List.foldl_nil, rewriteEntry]
    by_cases hmm : matchesName (effName f) (key, vs) = true
    · rw [if_pos hmm, if_pos hmm, hpayload, hrval]
    · rw [if_neg hmm, if_neg hmm]
  have hpf : ∀ vs : List String, processField [(key, vs)] f = processFieldCont f
      (([(key, vs)] : QV).foldl (rewriteEntry (effName f) (getSeparator f.tag) f.val.kind)
        ([(key, vs)], f.val)).1
      (([(key, vs)] : QV).foldl (rewriteEntry (effName f) (getSeparator f.tag) f.val.kind)
        ([(key, vs)], f.val)).2
      (qvGet (([(key, vs)] : QV).foldl (rewriteEntry (effName f) (getSeparator f.tag) f.val.kind)
        ([(key, vs)], f.val)).1 (effName f)) := fun _ => rfl
  have hb : matchesName (effName f) (key, v1 :: rest) = matchesName (effName f) (key, [v1]) := rfl
  apply parse_single_congr
  rw [hpf (v1 :: rest), hpf [v1], hstep (v1 :: rest), hstep [v1]]
  by_cases hmm : matchesName (effName f) (key, v1 :: rest) = true
  · rw [if_pos hmm, if_pos (hb ▸ hmm)]
    have hkeyeq : lowerStr key = effName f := matchesName_key_eq hmm
    have hget : ∀ vs : List String,
        qvGet (qvSet [(key, vs)] (lowerStr key) vs) (effName f) = vs.headD "" := by
      intro vs
      rw [← hkeyeq]
      unfold qvGet
      rw [qvGetAll_qvSet_self]
    rw [hget (v1 :: rest), hget [v1]]
    exact processFieldCont_snd f _ _ _ _
  · rw [if_neg hmm, if_neg (hb ▸ hmm)]
    have hget : ∀ vs : List String,
        qvGet ([(key, vs)] : QV) (effName f) = if key = effName f then vs.headD "" else "" := by
      intro vs
      unfold qvGet qvGetAll qvGetAll
      by_cases hkey : key = effName f
      · rw [if_pos hkey, if_pos hkey]
      · rw [if_neg hkey, if_neg hkey]
        rfl
    rw [hget (v1 :: rest), hget [v1]]
    by_cases hkey : key = effName f
    · rw [if_pos hkey, if_pos hkey]
      exact processFieldCont_snd f _ _ _ _
    · rw [if_neg hkey, if_neg hkey]
      exact processFieldCont_snd f _ _ _ _

theorem parse_scalar_first_value_witness :
    Parse (.structPtr [⟨"Name", "", .vString ""⟩]) [("name", ["a", "b"])]
      = Parse (.structPtr [⟨"Name", "", .vString ""⟩]) [("name", ["a"])] :=
  parse_scalar_first_value ⟨"Name", "", .vString ""⟩ "name" "a" ["b"]
    (by decide) (by decide)

theorem processFieldCont_kInt_fail {f : GoField} (hk : f.val.kind = .kInt) {q : String}
    (hq : q ≠ "") (hga : goAtoiS q = none) (a : QV) (v : FieldVal) :
    processFieldCont f a v q = some (a, v, some (intFieldMsg f.name q)) := by
  unfold processFieldCont
  rw [if_neg hq, hk, hga]

theorem processFieldCont_kStr {f : GoField} (hk : f.val.kind = .kStr) {q : String}
    (hq : q ≠ "") (a : QV) (v : FieldVal) :
    processFieldCont f a v q = some (a, .vString q, none) := by
  unfold processFieldCont
  rw [if_neg hq, hk]

/-- One unfolding step of `parseFields` on a non-empty field list, stated
with projections so later rewriting does not depend on pattern variables. -/
theorem parseFields_cons (qv : QV) (f : GoField) (fs : List GoField) :
    parseFields qv (f :: fs)
      = match processField qv f with
        | none => none
        | some t =>
          match parseFields t.1 fs with
          | none => none
          | some p => some ({ f with val := t.2.1 } :: p.1, p.2.1, t.2.2.toList ++ p.2.2) := by
  cases hp : processField qv f with
  | none => simp [parseFields, hp]
  | some t =>
    obtain ⟨qv', v', e⟩ := t
    cases h1 : parseFields qv' fs with
    | none => simp [parseFields, hp, h1]
    | some p =>
      obtain ⟨gs, qv'', errs⟩ := p
      simp [parseFields, hp, h1]

/-- Decomposition of the field loop over a split of the field list: the
second half is processed whatever the first half produced (a coercion
failure in the first half never short-circuits the second), the decoded
fields concatenate, and the error messages aggregate in field order. -/
theorem parseFields_append (fields1 fields2 : List GoField) (qv : QV) :
    parseFields qv (fields1 ++ fields2)
      = match parseFields qv fields1 with
        | none => none
        | some p1 =>
          match parseFields p1.2.1 fields2 with
          | none => none
          | some p2 => some (p1.1 ++ p2.1, p2.2.1, p1.2.2 ++ p2.2.2) := by
  induction fields1 generalizing qv with
  | nil =>
    simp only [List.nil_append, parseFields]
    cases hr : parseFields qv fields2 with
    | none => rfl
    | some t => rfl
  | cons f fs ih =>
    cases hp : processField qv f with
    | none => simp [List.cons_append, parseFields_cons, hp]
    | some t =>
      simp only [List.cons_append, parseFields_cons, hp, ih t.1]
      cases h1 : parseFields t.1 fs with
      | none => simp [h1]
      | some p1 =>
        cases h2 : parseFields p1.2.1 fields2 with
        | none => simp [h1, h2]
        | some p2 => simp [h1, h2]

/-- The field loop visits every field exactly once, in order: the decoded
field list corresponds pointwise to the input fields, preserving each
field's identifier and annotation. -/
theorem parseFields_shape (fields : List GoField) (qv : QV) {g : List GoField}
    {qv2 : QV} {errs : List String} (h : parseFields qv fields = some (g, qv2, errs)) :
    List.Forall₂ (fun gf f => gf.name = f.name ∧ gf.tag = f.tag) g fields := by
  induction fields generalizing qv g qv2 errs with
  | nil =>
    simp only [parseFields, Option.some.injEq, Prod.mk.injEq] at h
    rw [← h.1]
    exact List.Forall₂.nil
  | cons f fs ih =>
    rw [parseFields_cons] at h
    cases hp : processField qv f with
    | none => rw [hp] at h; simp at h
    | some t =>
      simp only [hp] at h
      cases h1 : parseFields t.1 fs with
      | none => simp [h1] at h
      | some p1 =>
        simp only [h1, Option.some.injEq, Prod.mk.injEq] at h
        rw [← h.1]
        exact List.Forall₂.cons ⟨rfl, rfl⟩ (ih t.1 h1)

/-- When the field loop returns normally, `Parse` returns the decoded fields
together with the aggregated message collection: `nil` on an empty
collection, the `TypeConvErrors` value otherwise. -/
theorem parse_of_parseFields (fields : List GoField) (qv : QV) {g : List GoField}
    {qv2 : QV} {errs : List String} (h : parseFields qv fields = some (g, qv2, errs)) :
    Parse (.structPtr fields) qv
      = .normal (.structPtr g) (if errs = [] then none else some (.typeConv errs)) := by
  simp [Parse, h]

/-- A field that reports a coercion message is left at its prior value, and
the message names the field identifier and the offending effective raw
value, for each of the five scalar kinds: an integer-kind field failed
`strconv` integer parsing of that value, a float-kind field failed float
parsing of it. -/
theorem processField_error_inv (f : GoField) (qv a : QV) (v : FieldVal) (msg : String)
    (h : processField qv f = some (a, v, some msg)) :
    v = f.val ∧ effValue qv f ≠ "" ∧
      ((goAtoiS (effValue qv f) = none ∧ msg = intFieldMsg f.name (effValue qv f) ∧
          (f.val.kind = .kInt ∨ f.val.kind = .kInt32 ∨ f.val.kind = .kInt64)) ∨
        (acceptFloatS (effValue qv f) = false ∧ msg = floatFieldMsg f.name (effValue qv f) ∧
          (f.val.kind = .kFloat64 ∨ f.val.kind = .kFloat32))) := by
  have hc : processField qv f
      = processFieldCont f
          (qv.foldl (rewriteEntry (effName f) (getSeparator f.tag) f.val.kind) (qv, f.val)).1
          (qv.foldl (rewriteEntry (effName f) (getSeparator f.tag) f.val.kind) (qv, f.val)).2
          (effValue qv f) := rfl
  rw [hc] at h
  unfold processFieldCont at h
  by_cases hq : effValue qv f = ""
  · rw [if_pos hq] at h
    simp at h
  · rw [if_neg hq] at h
    have hst2 : (qv.foldl (rewriteEntry (effName f) (getSeparator f.tag) f.val.kind)
        (qv, f.val)).2
        = if qv.any (matchesName (effName f)) then rewriteVal f.val.kind f.val else f.val :=
      rewrite_foldl_val _ _ _ _ _
    cases hkind : f.val.kind with
    | kMap => rw [hkind] at h; simp at h
    | kSlice => rw [hkind] at h; simp at h
    | kStr => rw [hkind] at h; simp at h
    | kInt =>
      rw [hkind] at h
      cases hga : goAtoiS (effValue qv f) with
      | some i => rw [hga] at h; simp at h
      | none =>
        rw [hga] at h
        simp only [Option.some.injEq, Prod.mk.injEq] at h
        rw [hkind] at hst2
        refine ⟨?_, hq, Or.inl ⟨rfl, h.2.2.symm, Or.inl rfl⟩⟩
        rw [← h.2.1, hst2]
        split <;> rfl
    | kInt32 =>
      rw [hkind] at h
      cases hga : goAtoiS (effValue qv f) with
      | some i => rw [hga] at h; simp at h
      | none =>
        rw [hga] at h
        simp only [Option.some.injEq, Prod.mk.injEq] at h
        rw [hkind] at hst2
        refine ⟨?_, hq, Or.inl ⟨rfl, h.2.2.symm, Or.inr (Or.inl rfl)⟩⟩
        rw [← h.2.1, hst2]
        split <;> rfl
    | kInt64 =>
      rw [hkind] at h
      cases hga : goAtoiS (effValue qv f) with
      | some i => rw [hga] at h; simp at h
      | none =>
        rw [hga] at h
        simp only [Option.some.injEq, Prod.mk.injEq] at h
        rw [hkind] at hst2
        refine ⟨?_, hq, Or.inl ⟨rfl, h.2.2.symm, Or.inr (Or.inr rfl)⟩⟩
        rw [← h.2.1, hst2]
        split <;> rfl
    | kFloat64 =>
      rw [hkind] at h
      by_cases hfa : acceptFloatS (effValue qv f) = true
      · simp [hfa] at h
      · have hfa2 : acceptFloatS (effValue qv f) = false := by
          simpa using hfa
        rw [hfa2] at h
        simp only [Bool.false_eq_true, if_false, Option.some.injEq, Prod.mk.injEq] at h
        rw [hkind] at hst2
        refine ⟨?_, hq, Or.inr ⟨hfa2, h.2.2.symm, Or.inl rfl⟩⟩
        rw [← h.2.1, hst2]
        split <;> rfl
    | kFloat32 =>
      rw [hkind] at h
      by_cases hfa : acceptFloatS (effValue qv f) = true
      · simp [hfa] at h
      · have hfa2 : acceptFloatS (effValue qv f) = false := by
          simpa using hfa
        rw [hfa2] at h
        simp only [Bool.false_eq_true, if_false, Option.some.injEq, Prod.mk.injEq] at h
        rw [hkind] at hst2
        refine ⟨?_, hq, Or.inr ⟨hfa2, h.2.2.symm, Or.inr rfl⟩⟩
        rw [← h.2.1, hst2]
        split <;> rfl

/-- C6: for every destination struct, a scalar coercion failure on one field
does not stop processing of the remaining fields, and `Parse` returns the
aggregated message collection.  Conjunct 1: splitting the field list
anywhere, the second half is processed whatever errors the first half
produced, and the error lists concatenate in field order (so all messages
are collected).  Conjunct 2: every field that reports a message is left at
its prior value and the message names the field and the offending raw
value, for each of the five scalar kinds (int, int32, int64, float64,
float32).  Conjunct 3: every field is visited exactly once in order
(names and annotations preserved pointwise) and `Parse` returns the
aggregated collection (nil when empty).  Conjunct 4: a struct with one
invalid-int field and one valid-string field yields exactly one message
while the string field is populated.  Conjunct 5: two invalid-int fields
yield both messages, in order.  Conjunct 6: a failure after a success — a
valid string, an invalid float64, then a valid int — yields exactly the
float message with both other fields populated. -/
theorem parse_collects_coercion_errors :
    (∀ (fields1 fields2 : List GoField) (qv : QV),
      parseFields qv (fields1 ++ fields2)
        = match parseFields qv fields1 with
          | none => none
          | some p1 =>
            match parseFields p1.2.1 fields2 with
            | none => none
            | some p2 => some (p1.1 ++ p2.1, p2.2.1, p1.2.2 ++ p2.2.2)) ∧
    (∀ (f : GoField) (qv a : QV) (v : FieldVal) (msg : String),
      processField qv f = some (a, v, some msg) →
      v = f.val ∧ effValue qv f ≠ "" ∧
        ((goAtoiS (effValue qv f) = none ∧ msg = intFieldMsg f.name (effValue qv f) ∧
            (f.val.kind = .kInt ∨ f.val.kind = .kInt32 ∨ f.val.kind = .kInt64)) ∨
          (acceptFloatS (effValue qv f) = false ∧ msg = floatFieldMsg f.name (effValue qv f) ∧
            (f.val.kind = .kFloat64 ∨ f.val.kind = .kFloat32)))) ∧
    (∀ (fields : List GoField) (qv : QV) (g : List GoField) (qv2 : QV) (errs : List String),
      parseFields qv fields = some (g, qv2, errs) →
      List.Forall₂ (fun gf f => gf.name = f.name ∧ gf.tag = f.tag) g fields ∧
      Parse (.structPtr fields) qv
        = .normal (.structPtr g) (if errs = [] then none else some (.typeConv errs))) ∧
    (∀ raw s : String, goAtoiS raw = none → raw ≠ "" → s ≠ "" →
      Parse (.structPtr [⟨"Age", "", .vInt 5⟩, ⟨"Name", "", .vString ""⟩])
          [("age", [raw]), ("name", [s])]
        = .normal (.structPtr [⟨"Age", "", .vInt 5⟩, ⟨"Name", "", .vString s⟩])
            (some (.typeConv [intFieldMsg "Age" raw]))) ∧
    (∀ r1 r2 : String, goAtoiS r1 = none → r1 ≠ "" → goAtoiS r2 = none → r2 ≠ "" →
      Parse (.structPtr [⟨"Age", "", .vInt 5⟩, ⟨"Score", "", .vInt 7⟩])
          [("age", [r1]), ("score", [r2])]
        = .normal (.structPtr [⟨"Age", "", .vInt 5⟩, ⟨"Score", "", .vInt 7⟩])
            (some (.typeConv [intFieldMsg "Age" r1, intFieldMsg "Score" r2]))) ∧
    Parse (.structPtr [⟨"Name", "", .vString ""⟩, ⟨"Rate", "", .vFloat64 "0"⟩,
          ⟨"Age", "", .vInt 0⟩])
        [("name", ["Doe"]), ("rate", ["abc"]), ("age", ["42"])]
      = .normal (.structPtr [⟨"Name", "", .vString "Doe"⟩, ⟨"Rate", "", .vFloat64 "0"⟩,
            ⟨"Age", "", .vInt 42⟩])
          (some (.typeConv [floatFieldMsg "Rate" "abc"])) := by
  refine ⟨parseFields_append, processField_error_inv,
    fun fields qv g qv2 errs h => ⟨parseFields_shape fields qv h, parse_of_parseFields fields qv h⟩,
    ?_, ?_, by decide⟩
  · intro raw s hraw hraw0 hs0
    have hA : processField [("age", [raw]), ("name", [s])] ⟨"Age", "", .vInt 5⟩
        = some ([("age", [raw]), ("name", [s])], .vInt 5, some (intFieldMsg "Age" raw)) :=
      by
      have hc : processField [("age", [raw]), ("name", [s])] ⟨"Age", "", .vInt 5⟩
          = processFieldCont ⟨"Age", "", .vInt 5⟩ [("age", [raw]), ("name", [s])]
              (.vInt 5) raw := rfl
      rw [hc]
      exact @processFieldCont_kInt_fail ⟨"Age", "", .vInt 5⟩ rfl raw hraw0 hraw _ _
    have hN : processField [("age", [raw]), ("name", [s])] ⟨"Name", "", .vString ""⟩
        = some ([("age", [raw]), ("name", [s])], .vString s, none) :=
      by
      have hc : processField [("age", [raw]), ("name", [s])] ⟨"Name", "", .vString ""⟩
          = processFieldCont ⟨"Name", "", .vString ""⟩ [("age", [raw]), ("name", [s])]
              (.vString "") s := rfl
      rw [hc]
      exact @processFieldCont_kStr ⟨"Name", "", .vString ""⟩ rfl s hs0 _ _
    simp [Parse, parseFields, hA, hN]
  · intro r1 r2 h1 h10 h2 h20
    have hA : processField [("age", [r1]), ("score", [r2])] ⟨"Age", "", .vInt 5⟩
        = some ([("age", [r1]), ("score", [r2])], .vInt 5, some (intFieldMsg "Age" r1)) :=
      by
      have hc : processField [("age", [r1]), ("score", [r2])] ⟨"Age", "", .vInt 5⟩
          = processFieldCont ⟨"Age", "", .vInt 5⟩ [("age", [r1]), ("score", [r2])]
              (.vInt 5) r1 := rfl
      rw [hc]
      exact @processFieldCont_kInt_fail ⟨"Age", "", .vInt 5⟩ rfl r1 h10 h1 _ _
    have hS : processField [("age", [r1]), ("score", [r2])] ⟨"Score", "", .vInt 7⟩
        = some ([("age", [r1]), ("score", [r2])], .vInt 7, some (intFieldMsg "Score" r2)) :=
      by
      have hc : processField [("age", [r1]), ("score", [r2])] ⟨"Score", "", .vInt 7⟩
          = processFieldCont ⟨"Score", "", .vInt 7⟩ [("age", [r1]), ("score", [r2])]
              (.vInt 7) r2 := rfl
      rw [hc]
      exact @processFieldCont_kInt_fail ⟨"Score", "", .vInt 7⟩ rfl r2 h20 h2 _ _
    simp [Parse, parseFields, hA, hS]

/-- Witness for C6: the decomposition conjunct instantiated at a concrete
two-field split with a failing float field first, and the invalid-int plus
valid-string scenario instantiated at `age=xx`, `name=Doe` with every
hypothesis discharged concretely. -/
theorem parse_collects_coercion_errors_witness :
    (parseFields [("rate", ["abc"]), ("age", ["42"])]
        ([⟨"Rate", "", .vFloat64 "0"⟩] ++ [⟨"Age", "", .vInt 0⟩])
      = match parseFields [("rate", ["abc"]), ("age", ["42"])] [⟨"Rate", "", .vFloat64 "0"⟩] with
        | none => none
        | some p1 =>
          match parseFields p1.2.1 [⟨"Age", "", .vInt 0⟩] with
          | none => none
          | some p2 => some (p1.1 ++ p2.1, p2.2.1, p1.2.2 ++ p2.2.2)) ∧
    Parse (.structPtr [⟨"Age", "", .vInt 5⟩, ⟨"Name", "", .vString ""⟩])
        [("age", ["xx"]), ("name", ["Doe"])]
      = .normal (.structPtr [⟨"Age", "", .vInt 5⟩, ⟨"Name", "", .vString "Doe"⟩])
          (some (.typeConv [intFieldMsg "Age" "xx"])) :=
  ⟨parse_collects_coercion_errors.1 [⟨"Rate", "", .vFloat64 "0"⟩] [⟨"Age", "", .vInt 0⟩]
      [("rate", ["abc"]), ("age", ["42"])],
    parse_collects_coercion_errors.2.2.2.1 "xx" "Doe" (by decide) (by decide) (by decide)⟩

/-- Fidelity check: the model reproduces the expectations of the repository's
own test table (slice decoding, custom separators, map decoding, the
operator-priority split and both trimming policies). -/
theorem model_matches_repo_tests :
    Parse (.structPtr [⟨"Embed", "", .vSlice none⟩]) [("embed", ["User,Order,Discount"])]
        = .normal (.structPtr [⟨"Embed", "", .vSlice (some ["user", "order", "discount"])⟩]) none ∧
      Parse (.structPtr [⟨"Embed", "", .vSlice none⟩]) [("Embed", [",User,Order,"])]
        = .normal (.structPtr [⟨"Embed", "", .vSlice (some ["user", "order"])⟩]) none ∧
      Parse (.structPtr [⟨"Embed", "sep:|", .vSlice none⟩]) [("embed", ["User|Order|"])]
        = .normal (.structPtr [⟨"Embed", "sep:|", .vSlice (some ["user", "order"])⟩]) none ∧
      Parse (.structPtr [⟨"Filter", "ops:>,==,<=,<,!=,-like-", .vMap none⟩])
          [("filter", ["age>7,gender==0,balance<=1000"])]
        = .normal (.structPtr [⟨"Filter", "ops:>,==,<=,<,!=,-like-",
            .vMap (some [("age >", "7"), ("gender ==", "0"), ("balance <=", "1000")])⟩]) none ∧
      Parse (.structPtr [⟨"Filter", "ops:>,==,<=,<,!=,-like-", .vMap none⟩])
          [("filter", [",Age>8,Gender==1,Balance<100,"])]
        = .normal (.structPtr [⟨"Filter", "ops:>,==,<=,<,!=,-like-",
            .vMap (some [("age >", "8"), ("gender ==", "1"), ("balance <", "100")])⟩]) none ∧
      Parse (.structPtr [⟨"Filter", "sep:| ops:>,==,<=,<,!=,-like-", .vMap none⟩])
          [("filter", ["aGe!=9|Gender>0|Lastname-like-Doe"])]
        = .normal (.structPtr [⟨"Filter", "sep:| ops:>,==,<=,<,!=,-like-",
            .vMap (some [("age !=", "9"), ("gender >", "0"), ("lastname -like-", "Doe")])⟩]) none := by
  refine ⟨by decide, by decide, by decide, by decide, by decide, by decide⟩

end QParams
